import Mathlib

/-!
# ESP32 PWM meter (`esp32_mcpwm_pwm_meter.c`)

A shallow embedding of the capture interrupt handler `Ext_PWM_ISR_handler`, the
periodic timer callback `print_adcpwm` and the start-up code and reporting loop
of `app_main`, together with the properties of the measurement they implement.

* `uint32_t` values are natural numbers; the one arithmetic operation the
  handler performs on them, subtraction, is reduced modulo `2 ^ 32` (`sub32`).
* `float` and `double` values are the rational numbers they denote; every
  floating-point operation is the exact operation followed by IEEE 754
  round-to-nearest-even to 24 respectively 53 significant bits (`roundNE`).
* The file-scope globals of the C file are the fields of `Globals`.
-/

namespace PWMMeter

/-! ## Machine arithmetic -/

/-- The modulus of `uint32_t` arithmetic, `2 ^ 32`. -/
def UINT32_MOD : Nat := 4294967296

/-- Subtraction of two `uint32_t` values as C performs it: modulo `2 ^ 32`. -/
def sub32 (a b : Nat) : Nat :=
  (a + (UINT32_MOD - b % UINT32_MOD)) % UINT32_MOD

/-- IEEE 754 round-to-nearest, ties-to-even, to a significand of `p` bits, on
the rational number an exact operation produced.  The exponent is `e`, the
scaled magnitude `s` lies in `[2 ^ (p - 1), 2 ^ p)`, and `s` is rounded to an
integer, a tie going to the even neighbour.  The exponent range is not bounded:
binary32 (`p = 24`) and binary64 (`p = 53`) round this way on their normal
range, which contains every non-zero value the program forms from a non-zero
32-bit clock frequency and 32-bit tick counts. -/
def roundNE (p : Nat) (x : ℚ) : ℚ :=
  if x = 0 then 0
  else
    let e : Int := Int.log 2 |x| - ((p : Int) - 1)
    let s : ℚ := |x| / (2 : ℚ) ^ e
    let m : Int := ⌊s⌋
    let r : ℚ := s - m
    let n : Int :=
      if r < 1 / 2 then m
      else if 1 / 2 < r then m + 1
      else if m % 2 = 0 then m
      else m + 1
    (SignType.sign x : ℚ) * ((n : ℚ) * (2 : ℚ) ^ e)

/-- Conversion of a `uint32_t` to `float` (the usual arithmetic conversion of
the left operand in `(uint32_t) pwm.period * ticks2us`). -/
def u32_to_float (n : Nat) : ℚ := roundNE 24 (n : ℚ)

/-- Conversion of a `uint32_t` to `double` (the divisor of
`1000000.0 / rtc_clk_apb_freq_get()`). -/
def u32_to_double (n : Nat) : ℚ := roundNE 53 (n : ℚ)

/-- Conversion of a `double` to `float` (the assignment to `ticks2us`). -/
def double_to_float (x : ℚ) : ℚ := roundNE 24 x

/-- Division of two `double` values. -/
def double_div (a b : ℚ) : ℚ := roundNE 53 (a / b)

/-- Multiplication of two `float` values. -/
def float_mul (a b : ℚ) : ℚ := roundNE 24 (a * b)

/-- Truncation toward zero. -/
def truncate (x : ℚ) : Int := if 0 ≤ x then ⌊x⌋ else ⌈x⌉

/-- Conversion of a `float` to `uint32_t` (the initialisation of `duty` and
`per`): the value is truncated toward zero; C defines the result only when the
truncated value is representable in `uint32_t`, and `none` stands for the
values it is not defined on. -/
def float_to_u32 (x : ℚ) : Option Nat :=
  if 0 ≤ truncate x ∧ truncate x < (UINT32_MOD : Int) then some (truncate x).toNat
  else none

/-! ## Data model -/

/-- The edge selector `mcpwm_capture_on_edge_t` of the MCPWM driver. -/
inductive mcpwm_capture_on_edge_t where
  | MCPWM_NEG_EDGE
  | MCPWM_POS_EDGE
  | MCPWM_BOTH_EDGE
  deriving DecidableEq

open mcpwm_capture_on_edge_t

/-- The event record `cap_event_data_t` the driver passes to the callback: the
edge that fired and the 32-bit capture counter value at that edge. -/
structure cap_event_data_t where
  cap_edge : mcpwm_capture_on_edge_t
  cap_value : Nat
  deriving DecidableEq

/-- The struct `PWM_Params`: period and duty cycle in capture ticks. -/
structure PWM_Params where
  period : Nat
  duty_cycle : Nat
  deriving DecidableEq

/-- The file-scope globals of the program. -/
structure Globals where
  pos_edg_0 : Nat
  pos_edg_1 : Nat
  neg_edg_0 : Nat
  ticks2us : ℚ
  time_2_print : Nat
  pwm : PWM_Params
  deriving DecidableEq

/-- The globals as their initialisers leave them (`ticks2us` has static storage
and no initialiser, so it starts as zero). -/
def Globals.init : Globals :=
  { pos_edg_0 := 0, pos_edg_1 := 0, neg_edg_0 := 0, ticks2us := 0,
    time_2_print := 0, pwm := { period := 0, duty_cycle := 0 } }

/-- One line of console output of the reporting loop: the two arguments of
`ESP_LOGI(TAG, "Duty Cycle: %uus, Period: %uus", duty, per)`, in that order. -/
structure Report where
  duty : Option Nat
  per : Option Nat
  deriving DecidableEq

/-! ## Operations -/

/-- The capture callback `Ext_PWM_ISR_handler`. -/
def Ext_PWM_ISR_handler (g : Globals) (edata : cap_event_data_t) : Globals :=
  if edata.cap_edge = MCPWM_POS_EDGE then
    let g1 : Globals := { g with pos_edg_1 := edata.cap_value }
    let g2 : Globals :=
      { g1 with pwm := { g1.pwm with period := sub32 g1.pos_edg_1 g1.pos_edg_0 } }
    { g2 with pos_edg_0 := g2.pos_edg_1 }
  else
    let g1 : Globals := { g with neg_edg_0 := edata.cap_value }
    { g1 with pwm := { g1.pwm with duty_cycle := sub32 g1.neg_edg_0 g1.pos_edg_0 } }

/-- The periodic timer callback `print_adcpwm`. -/
def print_adcpwm (g : Globals) : Globals :=
  { g with time_2_print := 1 }

/-- The value of `1000000.0 / rtc_clk_apb_freq_get()` converted to `float`, for
the frequency `apb_freq` the call returns.  A zero divisor makes the quotient
an infinity, which is not a number: `none`. -/
def ticks2us_of (apb_freq : Nat) : Option ℚ :=
  if apb_freq = 0 then none
  else some (double_to_float (double_div 1000000 (u32_to_double apb_freq)))

/-- The first statement of `app_main`: `ticks2us` is computed from the APB
clock frequency. -/
def app_main_start (apb_freq : Nat) (g : Globals) : Option Globals :=
  (ticks2us_of apb_freq).map fun t => { g with ticks2us := t }

/-- The expression `(uint32_t) ticks * ticks2us` converted to the `uint32_t`
it initialises. -/
def ticks_to_us (ticks : Nat) (t2us : ℚ) : Option Nat :=
  float_to_u32 (float_mul (u32_to_float ticks) t2us)

/-- One iteration of the `while (true)` loop of `app_main`: the new globals and
the lines it logged. -/
def app_main_loop (g : Globals) : Globals × List Report :=
  if g.time_2_print ≠ 0 then
    let duty := ticks_to_us g.pwm.duty_cycle g.ticks2us
    let per := ticks_to_us g.pwm.period g.ticks2us
    ({ g with time_2_print := 0 }, [{ duty := duty, per := per }])
  else (g, [])

/-- The handler applied to a sequence of edge events, oldest first. -/
def run_edges (g : Globals) (evs : List cap_event_data_t) : Globals :=
  evs.foldl Ext_PWM_ISR_handler g

/-- The capture value of the most recent rising edge of a sequence of events,
`0` when it has none. -/
def last_rising (evs : List cap_event_data_t) : Nat :=
  match evs.reverse.find? (fun e => e.cap_edge = MCPWM_POS_EDGE) with
  | some e => e.cap_value
  | none => 0

/-- The three activities of the running system. -/
inductive Step where
  | timer
  | edge (edata : cap_event_data_t)
  | loop
  deriving DecidableEq

/-- One activity: the globals after it and the lines it logged. -/
def step (g : Globals) : Step → Globals × List Report
  | Step.timer => (print_adcpwm g, [])
  | Step.edge edata => (Ext_PWM_ISR_handler g edata, [])
  | Step.loop => app_main_loop g

/-- A sequence of activities, oldest first: the final globals and everything
logged, in order. -/
def run_steps (g : Globals) : List Step → Globals × List Report
  | [] => (g, [])
  | x :: xs =>
    let r := step g x
    let rest := run_steps r.1 xs
    (rest.1, r.2 ++ rest.2)

/-- The conversion of the reporting loop for the clock frequency `apb_freq`:
the ratio computed at start-up applied to a tick count. -/
def report_us (apb_freq ticks : Nat) : Option Nat :=
  (ticks2us_of apb_freq).bind fun t => ticks_to_us ticks t

/-- The converted value in exact arithmetic, `floor (ticks * 1000000 / apb_freq)`:
what the conversion would yield without any rounding, for comparison with
`report_us`. -/
def exact_us (apb_freq ticks : Nat) : Nat :=
  ticks * 1000000 / apb_freq

/-! ## Modular subtraction -/

theorem sub32_lt (a b : Nat) : sub32 a b < 4294967296 := by
  unfold sub32 UINT32_MOD
  omega

theorem sub32_eq_emod (a b : Nat) :
    (sub32 a b : Int) = ((a : Int) - (b : Int)) % 4294967296 := by
  unfold sub32 UINT32_MOD
  omega


/-! ## Rounding -/

/-- The integer that round-to-nearest-even selects for a scaled magnitude. -/
theorem roundNE_pos_eq (p : Nat) (x : ℚ) (hx : 0 < x) :
    ∃ n : Int, roundNE p x = (n : ℚ) * (2 : ℚ) ^ (Int.log 2 x - ((p : Int) - 1)) ∧
      |(n : ℚ) - x / (2 : ℚ) ^ (Int.log 2 x - ((p : Int) - 1))| ≤ 1 / 2 := by
  unfold roundNE
  rw [if_neg (ne_of_gt hx)]
  simp only [abs_of_pos hx, sign_pos hx, SignType.coe_one, one_mul]
  generalize x / (2 : ℚ) ^ (Int.log 2 x - ((p : Int) - 1)) = s
  have h1 : ((⌊s⌋ : Int) : ℚ) ≤ s := Int.floor_le s
  have h2 : s < ((⌊s⌋ : Int) : ℚ) + 1 := Int.lt_floor_add_one s
  split_ifs with ha hb hc
  · exact ⟨_, rfl, by rw [abs_le]; constructor <;> linarith⟩
  · exact ⟨_, rfl, by push_cast; rw [abs_le]; constructor <;> linarith⟩
  · exact ⟨_, rfl, by rw [abs_le]; constructor <;> linarith⟩
  · exact ⟨_, rfl, by push_cast; rw [abs_le]; constructor <;> linarith⟩

theorem roundNE_abs_err (p : Nat) (x : ℚ) (hx : 0 < x) :
    |roundNE p x - x| ≤ x / (2 : ℚ) ^ p := by
  obtain ⟨n, hn, hs⟩ := roundNE_pos_eq p x hx
  have h2 : (0 : ℚ) < 2 := by norm_num
  have he : (0 : ℚ) < (2 : ℚ) ^ (Int.log 2 x - ((p : Int) - 1)) := zpow_pos h2 _
  have hL : ((2 : ℕ) : ℚ) ^ Int.log 2 x ≤ x := Int.zpow_log_le_self (by norm_num) hx
  have hsplit : (2 : ℚ) ^ Int.log 2 x
      = (2 : ℚ) ^ (Int.log 2 x - ((p : Int) - 1)) * (2 : ℚ) ^ p / 2 := by
    rw [zpow_sub₀ (ne_of_gt h2), zpow_sub₀ (ne_of_gt h2)]
    simp only [zpow_natCast, zpow_one]
    field_simp
  rw [hn]
  have key : (n : ℚ) * (2 : ℚ) ^ (Int.log 2 x - ((p : Int) - 1)) - x
      = ((n : ℚ) - x / (2 : ℚ) ^ (Int.log 2 x - ((p : Int) - 1)))
        * (2 : ℚ) ^ (Int.log 2 x - ((p : Int) - 1)) := by
    field_simp
  rw [key, abs_mul, abs_of_pos he]
  have hp : (0 : ℚ) < (2 : ℚ) ^ p := pow_pos h2 p
  rw [le_div_iff₀ hp]
  have hL2 : (2 : ℚ) ^ (Int.log 2 x - ((p : Int) - 1)) * (2 : ℚ) ^ p / 2 ≤ x := by
    rw [← hsplit]; exact_mod_cast hL
  calc |(n : ℚ) - x / (2 : ℚ) ^ (Int.log 2 x - ((p : Int) - 1))|
        * (2 : ℚ) ^ (Int.log 2 x - ((p : Int) - 1)) * (2 : ℚ) ^ p
      ≤ 1 / 2 * (2 : ℚ) ^ (Int.log 2 x - ((p : Int) - 1)) * (2 : ℚ) ^ p := by
        gcongr
    _ = (2 : ℚ) ^ (Int.log 2 x - ((p : Int) - 1)) * (2 : ℚ) ^ p / 2 := by ring
    _ ≤ x := hL2


theorem log_two_eq (x : ℚ) (L : Int) (hlo : (2 : ℚ) ^ L ≤ x) (hhi : x < (2 : ℚ) ^ (L + 1)) :
    Int.log 2 x = L := by
  have hx : 0 < x := lt_of_lt_of_le (zpow_pos (by norm_num) L) hlo
  have h1 : L ≤ Int.log 2 x := by
    rw [← Int.zpow_le_iff_le_log (by norm_num) hx]
    exact_mod_cast hlo
  have h2 : Int.log 2 x < L + 1 := by
    rw [← Int.lt_zpow_iff_log_lt (by norm_num) hx]
    exact_mod_cast hhi
  omega

/-- Evaluation of `roundNE`: a value in the binade `[2 ^ L, 2 ^ (L + 1))` whose
scaled magnitude is closer than one half to the integer `n` rounds to `n`
units of the last place. -/
theorem roundNE_eval (p : Nat) (x : ℚ) (L n : Int)
    (hlo : (2 : ℚ) ^ L ≤ x) (hhi : x < (2 : ℚ) ^ (L + 1))
    (hn : |(n : ℚ) - x / (2 : ℚ) ^ (L - ((p : Int) - 1))| < 1 / 2) :
    roundNE p x = (n : ℚ) * (2 : ℚ) ^ (L - ((p : Int) - 1)) := by
  have hx : 0 < x := lt_of_lt_of_le (zpow_pos (by norm_num) L) hlo
  have hL := log_two_eq x L hlo hhi
  unfold roundNE
  rw [if_neg (ne_of_gt hx)]
  simp only [abs_of_pos hx, sign_pos hx, SignType.coe_one, one_mul, hL]
  generalize x / (2 : ℚ) ^ (L - ((p : Int) - 1)) = s at hn ⊢
  have h1 : ((⌊s⌋ : Int) : ℚ) ≤ s := Int.floor_le s
  have h2 : s < ((⌊s⌋ : Int) : ℚ) + 1 := Int.lt_floor_add_one s
  rw [abs_lt] at hn
  obtain ⟨hn1, hn2⟩ := hn
  have key : ∀ k : Int, ((k : ℚ) - n < 1) → ((n : ℚ) - k < 1) → k = n := by
    intro k hk1 hk2
    have a1 : k - n < 1 := by exact_mod_cast hk1
    have a2 : n - k < 1 := by exact_mod_cast hk2
    omega
  split_ifs with ha hb hc
  · rw [key ⌊s⌋ (by linarith) (by linarith)]
  · rw [key (⌊s⌋ + 1) (by push_cast; linarith) (by push_cast; linarith)]
  · exfalso
    have hr : s - (⌊s⌋ : ℚ) = 1 / 2 := le_antisymm (not_lt.mp hb) (not_lt.mp ha)
    have b1 : (0 : ℚ) < (n : ℚ) - (⌊s⌋ : ℚ) := by linarith
    have b2 : (n : ℚ) - (⌊s⌋ : ℚ) < 1 := by linarith
    have c1 : 0 < n - ⌊s⌋ := by exact_mod_cast b1
    have c2 : n - ⌊s⌋ < 1 := by exact_mod_cast b2
    omega
  · exfalso
    have hr : s - (⌊s⌋ : ℚ) = 1 / 2 := le_antisymm (not_lt.mp hb) (not_lt.mp ha)
    have b1 : (0 : ℚ) < (n : ℚ) - (⌊s⌋ : ℚ) := by linarith
    have b2 : (n : ℚ) - (⌊s⌋ : ℚ) < 1 := by linarith
    have c1 : 0 < n - ⌊s⌋ := by exact_mod_cast b1
    have c2 : n - ⌊s⌋ < 1 := by exact_mod_cast b2
    omega

/-- A natural number below `2 ^ p` is a floating-point number of precision `p`:
rounding leaves it as it is. -/
theorem roundNE_natCast (p n : Nat) (hn : n < 2 ^ p) : roundNE p (n : ℚ) = n := by
  rcases Nat.eq_zero_or_pos n with h0 | hpos
  · subst h0; simp [roundNE]
  have hx : (0 : ℚ) < (n : ℚ) := by exact_mod_cast hpos
  have hlog : Nat.log 2 n < p := by
    rw [← Nat.lt_pow_iff_log_lt (by norm_num) (by omega)]
    exact hn
  have hL : Int.log 2 (n : ℚ) = (Nat.log 2 n : Int) := Int.log_natCast 2 n
  obtain ⟨d, hd⟩ : ∃ d : Nat, (p : Int) - 1 - (Nat.log 2 n : Int) = d :=
    ⟨p - 1 - Nat.log 2 n, by omega⟩
  have he : (Nat.log 2 n : Int) - ((p : Int) - 1) = -(d : Int) := by omega
  have h2 : (2 : ℚ) ^ (-(d : Int)) = ((2 : ℚ) ^ d)⁻¹ := by
    rw [zpow_neg, zpow_natCast]
  have hlo : (2 : ℚ) ^ (Nat.log 2 n : Int) ≤ (n : ℚ) := by
    have := @Int.zpow_log_le_self ℚ _ _ 2 (n : ℚ) (by norm_num) hx
    rw [hL] at this
    exact_mod_cast this
  have hhi : (n : ℚ) < (2 : ℚ) ^ ((Nat.log 2 n : Int) + 1) := by
    have := @Int.lt_zpow_succ_log_self ℚ _ _ 2 (by norm_num) (n : ℚ)
    rw [hL] at this
    exact_mod_cast this
  have hpow : (0 : ℚ) < (2 : ℚ) ^ d := pow_pos (by norm_num) d
  have := roundNE_eval p (n : ℚ) (Nat.log 2 n : Int) ((n * 2 ^ d : Nat) : Int) hlo hhi (by
    rw [he, h2]
    push_cast
    rw [div_inv_eq_mul, sub_self, abs_zero]
    norm_num)
  rw [this, he, h2]
  push_cast
  field_simp

/-! ## The edge handler on sequences of events -/

theorem run_edges_append (g : Globals) (evs : List cap_event_data_t) (e : cap_event_data_t) :
    run_edges g (evs ++ [e]) = Ext_PWM_ISR_handler (run_edges g evs) e := by
  simp [run_edges, List.foldl_append]

/-- The stored rising-edge timestamp `pos_edg_0` is the capture value of the
latest rising edge it has seen. -/
theorem pos_edg_0_run_edges (g : Globals) (evs : List cap_event_data_t) :
    (run_edges g evs).pos_edg_0 =
      (match evs.reverse.find? (fun e => e.cap_edge = MCPWM_POS_EDGE) with
        | some e => e.cap_value
        | none => g.pos_edg_0) := by
  induction evs using List.reverseRecOn with
  | nil => simp [run_edges]
  | append_singleton l e ih =>
    rw [run_edges_append, List.reverse_append]
    simp only [List.reverse_cons, List.reverse_nil, List.nil_append, List.singleton_append,
      List.find?_cons]
    by_cases h : e.cap_edge = MCPWM_POS_EDGE
    · simp [Ext_PWM_ISR_handler, h]
    · simp [Ext_PWM_ISR_handler, h, ih]

theorem pos_edg_0_from_init (evs : List cap_event_data_t) :
    (run_edges Globals.init evs).pos_edg_0 = last_rising evs := by
  rw [pos_edg_0_run_edges, last_rising]
  rfl

/-- Claim C1: from the zero-initialised globals, right after a rising edge with
capture value `t` the stored `pwm.period` is `(t - t_prev) mod 2 ^ 32`, where
`t_prev` is the capture value of the latest earlier rising edge, `0` when there
is none, whatever falling edges came in between; so a first rising edge stores
its own capture value `t`. -/
theorem period_after_rising_edge (pre : List cap_event_data_t) (t : Nat) :
    (((run_edges Globals.init (pre ++ [⟨MCPWM_POS_EDGE, t⟩])).pwm.period : Nat) : Int)
        = ((t : Int) - (last_rising pre : Int)) % 4294967296
      ∧ ((∀ e ∈ pre, e.cap_edge ≠ MCPWM_POS_EDGE) → t < 4294967296 →
          (run_edges Globals.init (pre ++ [⟨MCPWM_POS_EDGE, t⟩])).pwm.period = t) := by
  have hp : (run_edges Globals.init (pre ++ [⟨MCPWM_POS_EDGE, t⟩])).pwm.period
      = sub32 t (last_rising pre) := by
    rw [run_edges_append, ← pos_edg_0_from_init pre]
    simp [Ext_PWM_ISR_handler]
  refine ⟨by rw [hp, sub32_eq_emod], ?_⟩
  intro hnone ht
  have hl : last_rising pre = 0 := by
    unfold last_rising
    have : pre.reverse.find? (fun e => e.cap_edge = MCPWM_POS_EDGE) = none := by
      rw [List.find?_eq_none]
      intro e he
      simpa using hnone e (List.mem_reverse.mp he)
    rw [this]
  rw [hp, hl]
  unfold sub32 UINT32_MOD
  omega

theorem period_after_rising_edge_witness :
    (∀ e ∈ [(⟨MCPWM_NEG_EDGE, 7⟩ : cap_event_data_t)], e.cap_edge ≠ MCPWM_POS_EDGE)
      ∧ (1000 : Nat) < 4294967296
      ∧ (run_edges Globals.init
          ([(⟨MCPWM_NEG_EDGE, 7⟩ : cap_event_data_t)] ++ [⟨MCPWM_POS_EDGE, 1000⟩])).pwm.period
          = 1000 :=
  ⟨by decide, by decide,
    (period_after_rising_edge [⟨MCPWM_NEG_EDGE, 7⟩] 1000).2 (by decide) (by decide)⟩

/-- Claim C2: from the zero-initialised globals, right after a falling edge
with capture value `f` the stored `pwm.duty_cycle` is `(f - r) mod 2 ^ 32`,
where `r` is the capture value of the latest earlier rising edge, `0` when no
rising edge has occurred. -/
theorem duty_after_falling_edge (pre : List cap_event_data_t) (f : Nat) :
    (((run_edges Globals.init (pre ++ [⟨MCPWM_NEG_EDGE, f⟩])).pwm.duty_cycle : Nat) : Int)
      = ((f : Int) - (last_rising pre : Int)) % 4294967296 := by
  have hp : (run_edges Globals.init (pre ++ [⟨MCPWM_NEG_EDGE, f⟩])).pwm.duty_cycle
      = sub32 f (last_rising pre) := by
    rw [run_edges_append, ← pos_edg_0_from_init pre]
    simp [Ext_PWM_ISR_handler]
  rw [hp, sub32_eq_emod]

/-- Claim C3: from any globals, for a start tick `r < 2 ^ 32` and a true period
`P` and duty `D` with `D ≤ P < 2 ^ 32`, the edges rising at `r`, falling at
`(r + D) mod 2 ^ 32`, rising at `(r + P) mod 2 ^ 32` leave `pwm.period = P` and
`pwm.duty_cycle = D`, also when `r + D` or `r + P` wraps. -/
theorem round_trip_period_duty (g : Globals) (r P D : Nat)
    (_hr : r < 4294967296) (hD : D ≤ P) (hP : P < 4294967296) :
    (run_edges g [⟨MCPWM_POS_EDGE, r⟩, ⟨MCPWM_NEG_EDGE, (r + D) % 4294967296⟩,
        ⟨MCPWM_POS_EDGE, (r + P) % 4294967296⟩]).pwm.period = P
      ∧ (run_edges g [⟨MCPWM_POS_EDGE, r⟩, ⟨MCPWM_NEG_EDGE, (r + D) % 4294967296⟩,
        ⟨MCPWM_POS_EDGE, (r + P) % 4294967296⟩]).pwm.duty_cycle = D := by
  simp only [run_edges, List.foldl_cons, List.foldl_nil, Ext_PWM_ISR_handler, if_true,
    reduceCtorEq, if_false, sub32, UINT32_MOD]
  constructor <;> omega

theorem round_trip_period_duty_witness :
    (4294967286 : Nat) < 4294967296 ∧ (20 : Nat) ≤ 50 ∧ (50 : Nat) < 4294967296
      ∧ (run_edges Globals.init [⟨MCPWM_POS_EDGE, 4294967286⟩,
          ⟨MCPWM_NEG_EDGE, (4294967286 + 20) % 4294967296⟩,
          ⟨MCPWM_POS_EDGE, (4294967286 + 50) % 4294967296⟩]).pwm.period = 50
      ∧ (run_edges Globals.init [⟨MCPWM_POS_EDGE, 4294967286⟩,
          ⟨MCPWM_NEG_EDGE, (4294967286 + 20) % 4294967296⟩,
          ⟨MCPWM_POS_EDGE, (4294967286 + 50) % 4294967296⟩]).pwm.duty_cycle = 20 := by
  have h1 : (4294967286 : Nat) < 4294967296 := by norm_num
  have h2 : (20 : Nat) ≤ 50 := by norm_num
  have h3 : (50 : Nat) < 4294967296 := by norm_num
  exact ⟨h1, h2, h3, round_trip_period_duty Globals.init 4294967286 50 20 h1 h2 h3⟩

/-- Claim C5: a rising edge at tick `2 ^ 32 - 5` followed by a rising edge at
tick `3` stores `pwm.period = 8`. -/
theorem wraparound_period_eight (g : Globals) :
    (run_edges g [⟨MCPWM_POS_EDGE, 4294967291⟩, ⟨MCPWM_POS_EDGE, 3⟩]).pwm.period = 8 := by
  simp only [run_edges, List.foldl_cons, List.foldl_nil, Ext_PWM_ISR_handler, if_true, sub32,
    UINT32_MOD]

/-! ## The report flag -/

theorem run_steps_append (g : Globals) (xs ys : List Step) :
    run_steps g (xs ++ ys)
      = ((run_steps (run_steps g xs).1 ys).1, (run_steps g xs).2 ++ (run_steps (run_steps g xs).1 ys).2) := by
  induction xs generalizing g with
  | nil => simp [run_steps]
  | cons x xs ih => simp [run_steps, ih, List.append_assoc]

theorem handler_time_2_print (g : Globals) (e : cap_event_data_t) :
    (Ext_PWM_ISR_handler g e).time_2_print = g.time_2_print := by
  unfold Ext_PWM_ISR_handler
  split_ifs <;> rfl

/-- Timer and edge activity logs nothing, and leaves the flag set once it is
set or a timer call occurs. -/
theorem run_steps_no_loop (g : Globals) (xs : List Step) (hx : ∀ x ∈ xs, x ≠ Step.loop) :
    (run_steps g xs).2 = []
      ∧ (g.time_2_print ≠ 0 ∨ Step.timer ∈ xs → (run_steps g xs).1.time_2_print ≠ 0) := by
  induction xs generalizing g with
  | nil => simp [run_steps]
  | cons x xs ih =>
    have hxs : ∀ y ∈ xs, y ≠ Step.loop := fun y hy => hx y (List.mem_cons_of_mem _ hy)
    cases x with
    | timer =>
      obtain ⟨h1, h2⟩ := ih (print_adcpwm g) hxs
      refine ⟨by simp [run_steps, step, h1], fun _ => ?_⟩
      exact h2 (Or.inl (by simp [print_adcpwm]))
    | edge e =>
      obtain ⟨h1, h2⟩ := ih (Ext_PWM_ISR_handler g e) hxs
      refine ⟨by simp [run_steps, step, h1], fun h => ?_⟩
      apply h2
      rcases h with h | h
      · left; rw [handler_time_2_print]; exact h
      · right; simpa using h
    | loop => exact absurd rfl (hx Step.loop (List.mem_cons_self _ _))

/-- Loop and edge activity with the flag clear logs nothing and keeps it
clear. -/
theorem run_steps_no_timer_clear (g : Globals) (xs : List Step)
    (hx : ∀ x ∈ xs, x ≠ Step.timer) (hg : g.time_2_print = 0) :
    (run_steps g xs).2 = [] ∧ (run_steps g xs).1.time_2_print = 0 := by
  induction xs generalizing g with
  | nil => simp [run_steps, hg]
  | cons x xs ih =>
    have hxs : ∀ y ∈ xs, y ≠ Step.timer := fun y hy => hx y (List.mem_cons_of_mem _ hy)
    cases x with
    | timer => exact absurd rfl (hx Step.timer (List.mem_cons_self _ _))
    | edge e =>
      obtain ⟨h1, h2⟩ := ih (Ext_PWM_ISR_handler g e) hxs (by rw [handler_time_2_print]; exact hg)
      exact ⟨by simp [run_steps, step, h1], by simpa [run_steps, step] using h2⟩
    | loop =>
      have hl : app_main_loop g = (g, []) := by simp [app_main_loop, hg]
      obtain ⟨h1, h2⟩ := ih g hxs hg
      exact ⟨by simp [run_steps, step, hl, h1], by simpa [run_steps, step, hl] using h2⟩

/-- Loop and edge activity with the flag set: the first loop iteration logs one
line and clears the flag. -/
theorem run_steps_no_timer_set (g : Globals) (xs : List Step)
    (hx : ∀ x ∈ xs, x ≠ Step.timer) (hl : Step.loop ∈ xs) (hg : g.time_2_print ≠ 0) :
    (run_steps g xs).2.length = 1 ∧ (run_steps g xs).1.time_2_print = 0 := by
  induction xs generalizing g with
  | nil => simp at hl
  | cons x xs ih =>
    have hxs : ∀ y ∈ xs, y ≠ Step.timer := fun y hy => hx y (List.mem_cons_of_mem _ hy)
    cases x with
    | timer => exact absurd rfl (hx Step.timer (List.mem_cons_self _ _))
    | edge e =>
      have hl2 : Step.loop ∈ xs := by simpa using hl
      obtain ⟨h1, h2⟩ := ih (Ext_PWM_ISR_handler g e) hxs hl2
        (by rw [handler_time_2_print]; exact hg)
      exact ⟨by simpa [run_steps, step] using h1, by simpa [run_steps, step] using h2⟩
    | loop =>
      obtain ⟨h1, h2⟩ := run_steps_no_timer_clear (app_main_loop g).1 xs hxs
        (by simp [app_main_loop, hg])
      refine ⟨?_, by simpa [run_steps, step] using h2⟩
      simp [run_steps, step, h1]
      simp [app_main_loop, hg]

/-- Claim C6: from any globals, one or more calls of `print_adcpwm` with no
iteration of the reporting loop among them (edge interrupts may occur),
followed by one or more iterations of the reporting loop with no further timer
call (edge interrupts may occur), log exactly one report and leave
`time_2_print` at `0`. -/
theorem report_flag_coalesces (g : Globals) (before after : List Step)
    (hb : ∀ x ∈ before, x ≠ Step.loop) (ht : Step.timer ∈ before)
    (ha : ∀ x ∈ after, x ≠ Step.timer) (hl : Step.loop ∈ after) :
    (run_steps g (before ++ after)).2.length = 1
      ∧ (run_steps g (before ++ after)).1.time_2_print = 0 := by
  obtain ⟨h1, h2⟩ := run_steps_no_loop g before hb
  obtain ⟨h3, h4⟩ := run_steps_no_timer_set (run_steps g before).1 after ha hl (h2 (Or.inr ht))
  rw [run_steps_append]
  exact ⟨by simp [h1, h3], h4⟩

theorem report_flag_coalesces_witness :
    (∀ x ∈ [Step.timer, Step.edge ⟨MCPWM_POS_EDGE, 5⟩, Step.timer], x ≠ Step.loop)
      ∧ Step.timer ∈ [Step.timer, Step.edge ⟨MCPWM_POS_EDGE, 5⟩, Step.timer]
      ∧ (∀ x ∈ [Step.loop, Step.edge ⟨MCPWM_NEG_EDGE, 9⟩, Step.loop], x ≠ Step.timer)
      ∧ Step.loop ∈ [Step.loop, Step.edge ⟨MCPWM_NEG_EDGE, 9⟩, Step.loop]
      ∧ (run_steps Globals.init ([Step.timer, Step.edge ⟨MCPWM_POS_EDGE, 5⟩, Step.timer]
          ++ [Step.loop, Step.edge ⟨MCPWM_NEG_EDGE, 9⟩, Step.loop])).2.length = 1
      ∧ (run_steps Globals.init ([Step.timer, Step.edge ⟨MCPWM_POS_EDGE, 5⟩, Step.timer]
          ++ [Step.loop, Step.edge ⟨MCPWM_NEG_EDGE, 9⟩, Step.loop])).1.time_2_print = 0 :=
  ⟨by decide, by decide, by decide, by decide,
    report_flag_coalesces Globals.init [Step.timer, Step.edge ⟨MCPWM_POS_EDGE, 5⟩, Step.timer]
      [Step.loop, Step.edge ⟨MCPWM_NEG_EDGE, 9⟩, Step.loop]
      (by decide) (by decide) (by decide) (by decide)⟩

/-! ## The reporting loop and the frame of the handler -/

theorem truncate_of_nonneg (y : ℚ) (hy : 0 ≤ y) : truncate y = ⌊y⌋ := by
  simp [truncate, hy]

/-- On a non-negative value whose integer part fits, the conversion yields the
integer part. -/
theorem float_to_u32_of_nonneg (y : ℚ) (hy : 0 ≤ y) (hlt : ⌊y⌋₊ < 4294967296) :
    float_to_u32 y = some ⌊y⌋₊ := by
  have h0 : (0 : Int) ≤ ⌊y⌋ := Int.floor_nonneg.mpr hy
  have h1 : (⌊y⌋).toNat = ⌊y⌋₊ := rfl
  have h2 : ⌊y⌋ < (4294967296 : Int) := by
    have : ((⌊y⌋).toNat : Int) = ⌊y⌋ := Int.toNat_of_nonneg h0
    rw [h1] at this
    omega
  unfold float_to_u32
  rw [truncate_of_nonneg y hy, if_pos ⟨h0, by simpa [UINT32_MOD] using h2⟩, h1]

/-- On a value of `2 ^ 32` or more the conversion is not defined. -/
theorem float_to_u32_of_large (y : ℚ) (hy : 4294967296 ≤ y) : float_to_u32 y = none := by
  have h0 : (0 : ℚ) ≤ y := le_trans (by norm_num) hy
  have h1 : (4294967296 : Int) ≤ ⌊y⌋ := by
    rw [Int.le_floor]; exact_mod_cast hy
  unfold float_to_u32
  rw [truncate_of_nonneg y h0, if_neg]
  simp only [UINT32_MOD, Nat.cast_ofNat, not_and, not_lt]
  intro _; exact h1


theorem handler_rising_duty (g : Globals) (e : cap_event_data_t)
    (he : e.cap_edge = MCPWM_POS_EDGE) :
    (Ext_PWM_ISR_handler g e).pwm.duty_cycle = g.pwm.duty_cycle := by
  simp [Ext_PWM_ISR_handler, he]

theorem handler_falling_period (g : Globals) (e : cap_event_data_t)
    (he : e.cap_edge ≠ MCPWM_POS_EDGE) :
    (Ext_PWM_ISR_handler g e).pwm.period = g.pwm.period
      ∧ (Ext_PWM_ISR_handler g e).pos_edg_0 = g.pos_edg_0 := by
  simp [Ext_PWM_ISR_handler, he]

/-- Claim C8: a falling-edge call of the handler leaves `pwm.period` and the
stored rising-edge timestamp `pos_edg_0` unchanged and a rising-edge call leaves
`pwm.duty_cycle` unchanged; so a sequence of rising edges only keeps
`pwm.duty_cycle`, a sequence of falling edges only keeps `pwm.period`, and no
call changes `time_2_print`. -/
theorem stale_value_persists (g : Globals) :
    (∀ e : cap_event_data_t, e.cap_edge ≠ MCPWM_POS_EDGE →
        (Ext_PWM_ISR_handler g e).pwm.period = g.pwm.period
          ∧ (Ext_PWM_ISR_handler g e).pos_edg_0 = g.pos_edg_0)
      ∧ (∀ e : cap_event_data_t, e.cap_edge = MCPWM_POS_EDGE →
        (Ext_PWM_ISR_handler g e).pwm.duty_cycle = g.pwm.duty_cycle)
      ∧ (∀ evs : List cap_event_data_t, (∀ e ∈ evs, e.cap_edge = MCPWM_POS_EDGE) →
        (run_edges g evs).pwm.duty_cycle = g.pwm.duty_cycle)
      ∧ (∀ evs : List cap_event_data_t, (∀ e ∈ evs, e.cap_edge ≠ MCPWM_POS_EDGE) →
        (run_edges g evs).pwm.period = g.pwm.period)
      ∧ (∀ e : cap_event_data_t,
        (Ext_PWM_ISR_handler g e).time_2_print = g.time_2_print)
      ∧ (∀ evs : List cap_event_data_t, (run_edges g evs).time_2_print = g.time_2_print) := by
  refine ⟨fun e he => handler_falling_period g e he, fun e he => handler_rising_duty g e he,
    fun evs => ?_, fun evs => ?_, fun e => handler_time_2_print g e, fun evs => ?_⟩
  · induction evs using List.reverseRecOn with
    | nil => intro _; rfl
    | append_singleton l e ih =>
      intro h
      rw [run_edges_append, handler_rising_duty _ e (h e (by simp))]
      exact ih (fun x hx => h x (by simp [hx]))
  · induction evs using List.reverseRecOn with
    | nil => intro _; rfl
    | append_singleton l e ih =>
      intro h
      rw [run_edges_append, (handler_falling_period _ e (h e (by simp))).1]
      exact ih (fun x hx => h x (by simp [hx]))
  · induction evs using List.reverseRecOn with
    | nil => rfl
    | append_singleton l e ih => rw [run_edges_append, handler_time_2_print, ih]

theorem stale_value_persists_witness :
    (∀ e ∈ [(⟨MCPWM_POS_EDGE, 10⟩ : cap_event_data_t), ⟨MCPWM_POS_EDGE, 30⟩],
        e.cap_edge = MCPWM_POS_EDGE)
      ∧ (run_edges Globals.init [⟨MCPWM_POS_EDGE, 10⟩, ⟨MCPWM_POS_EDGE, 30⟩]).pwm.duty_cycle
          = Globals.init.pwm.duty_cycle
      ∧ (∀ e ∈ [(⟨MCPWM_NEG_EDGE, 10⟩ : cap_event_data_t), ⟨MCPWM_NEG_EDGE, 30⟩],
        e.cap_edge ≠ MCPWM_POS_EDGE)
      ∧ (run_edges Globals.init [⟨MCPWM_NEG_EDGE, 10⟩, ⟨MCPWM_NEG_EDGE, 30⟩]).pwm.period
          = Globals.init.pwm.period :=
  ⟨by decide,
    (stale_value_persists Globals.init).2.2.1 [⟨MCPWM_POS_EDGE, 10⟩, ⟨MCPWM_POS_EDGE, 30⟩]
      (by decide),
    by decide,
    (stale_value_persists Globals.init).2.2.2.1 [⟨MCPWM_NEG_EDGE, 10⟩, ⟨MCPWM_NEG_EDGE, 30⟩]
      (by decide)⟩


/-! ## The conversion to microseconds -/

theorem float_to_u32_natCast (k : Nat) (hk : k < 4294967296) : float_to_u32 (k : ℚ) = some k := by
  have := float_to_u32_of_nonneg (k : ℚ) (Nat.cast_nonneg k) (by simpa using hk)
  simpa using this

theorem ticks2us_of_80MHz : ticks2us_of 80000000 = some (13421773 / 1073741824) := by
  have h1 : u32_to_double 80000000 = 80000000 := by
    have := roundNE_natCast 53 80000000 (by norm_num)
    simpa [u32_to_double] using this
  have h2 : double_div 1000000 80000000 = 7205759403792794 / 576460752303423488 := by
    unfold double_div
    rw [roundNE_eval 53 (1000000 / 80000000) (-7) 7205759403792794
      (by norm_num) (by norm_num) (by norm_num [abs_lt])]
    norm_num
  have h3 : double_to_float (7205759403792794 / 576460752303423488)
      = 13421773 / 1073741824 := by
    unfold double_to_float
    rw [roundNE_eval 24 (7205759403792794 / 576460752303423488) (-7) 13421773
      (by norm_num) (by norm_num) (by norm_num [abs_lt])]
    norm_num
  unfold ticks2us_of
  rw [if_neg (by norm_num), h1, h2, h3]

theorem ticks_to_us_40000 : ticks_to_us 40000 (13421773 / 1073741824) = some 500 := by
  have h1 : u32_to_float 40000 = 40000 := by
    have := roundNE_natCast 24 40000 (by norm_num)
    simpa [u32_to_float] using this
  have h2 : float_mul 40000 (13421773 / 1073741824) = 500 := by
    unfold float_mul
    rw [roundNE_eval 24 (40000 * (13421773 / 1073741824)) 8 16384000
      (by norm_num) (by norm_num) (by norm_num [abs_lt])]
    norm_num
  have h3 := float_to_u32_natCast 500 (by norm_num)
  rw [Nat.cast_ofNat] at h3
  unfold ticks_to_us
  rw [h1, h2]
  exact h3

theorem ticks_to_us_80000 : ticks_to_us 80000 (13421773 / 1073741824) = some 1000 := by
  have h1 : u32_to_float 80000 = 80000 := by
    have := roundNE_natCast 24 80000 (by norm_num)
    simpa [u32_to_float] using this
  have h2 : float_mul 80000 (13421773 / 1073741824) = 1000 := by
    unfold float_mul
    rw [roundNE_eval 24 (80000 * (13421773 / 1073741824)) 9 16384000
      (by norm_num) (by norm_num) (by norm_num [abs_lt])]
    norm_num
  have h3 := float_to_u32_natCast 1000 (by norm_num)
  rw [Nat.cast_ofNat] at h3
  unfold ticks_to_us
  rw [h1, h2]
  exact h3

/-- Claim C4: with an APB clock of 80,000,000 Hz, from the zero-initialised
globals, a rising edge at tick 0, a falling edge at tick 40,000 and a rising
edge at tick 80,000 leave `pwm.duty_cycle = 40000` and `pwm.period = 80000`,
and the next report of the loop reads duty 500 and period 1000 microseconds;
`ticks2us` is the `float` nearest to `1000000 / 80000000`. -/
theorem end_to_end_scenario :
    ∃ g0 : Globals, app_main_start 80000000 Globals.init = some g0
      ∧ g0.ticks2us = 13421773 / 1073741824
      ∧ (run_edges g0 [⟨MCPWM_POS_EDGE, 0⟩, ⟨MCPWM_NEG_EDGE, 40000⟩,
          ⟨MCPWM_POS_EDGE, 80000⟩]).pwm.duty_cycle = 40000
      ∧ (run_edges g0 [⟨MCPWM_POS_EDGE, 0⟩, ⟨MCPWM_NEG_EDGE, 40000⟩,
          ⟨MCPWM_POS_EDGE, 80000⟩]).pwm.period = 80000
      ∧ (app_main_loop (print_adcpwm (run_edges g0 [⟨MCPWM_POS_EDGE, 0⟩,
          ⟨MCPWM_NEG_EDGE, 40000⟩, ⟨MCPWM_POS_EDGE, 80000⟩]))).2
          = [{ duty := some 500, per := some 1000 }] := by
  refine ⟨{ Globals.init with ticks2us := 13421773 / 1073741824 }, ?_, rfl, ?_, ?_, ?_⟩
  · simp [app_main_start, ticks2us_of_80MHz]
  · simp only [run_edges, List.foldl_cons, List.foldl_nil, Ext_PWM_ISR_handler, if_true,
      reduceCtorEq, if_false, sub32, UINT32_MOD, Globals.init]
  · simp only [run_edges, List.foldl_cons, List.foldl_nil, Ext_PWM_ISR_handler, if_true,
      reduceCtorEq, if_false, sub32, UINT32_MOD, Globals.init]
  · have hd := ticks_to_us_40000
    have hp := ticks_to_us_80000
    simp only [run_edges, List.foldl_cons, List.foldl_nil, Ext_PWM_ISR_handler, if_true,
      reduceCtorEq, if_false, sub32, UINT32_MOD, Globals.init, app_main_loop, print_adcpwm]
    norm_num
    exact ⟨hd, hp⟩


/-! ## Error bounds of the conversion -/

theorem roundNE_le (p : Nat) (x : ℚ) (hx : 0 < x) :
    roundNE p x ≤ x * (1 + 1 / (2 : ℚ) ^ p) := by
  have h := roundNE_abs_err p x hx
  rw [abs_le] at h
  have : x * (1 + 1 / (2 : ℚ) ^ p) = x + x / (2 : ℚ) ^ p := by ring
  linarith [h.2]

theorem roundNE_ge (p : Nat) (x : ℚ) (hx : 0 < x) :
    x * (1 - 1 / (2 : ℚ) ^ p) ≤ roundNE p x := by
  have h := roundNE_abs_err p x hx
  rw [abs_le] at h
  have : x * (1 - 1 / (2 : ℚ) ^ p) = x - x / (2 : ℚ) ^ p := by ring
  linarith [h.1]

theorem roundNE_pos (p : Nat) (x : ℚ) (hx : 0 < x) (hp : 1 ≤ p) : 0 < roundNE p x := by
  have h := roundNE_ge p x hx
  have h2 : (2 : ℚ) ≤ (2 : ℚ) ^ p := by
    calc (2 : ℚ) = (2 : ℚ) ^ 1 := by norm_num
      _ ≤ (2 : ℚ) ^ p := pow_le_pow_right₀ (by norm_num) hp
  have h3 : (0 : ℚ) < 1 - 1 / (2 : ℚ) ^ p := by
    have : 1 / (2 : ℚ) ^ p ≤ 1 / 2 := by
      apply div_le_div_of_nonneg_left <;> norm_num
      exact h2
    linarith
  exact lt_of_lt_of_le (mul_pos hx h3) h

/-- The ratio the program stores: the exact quotient rounded to `double` and
then to `float`, with the two rounding errors bounded. -/
theorem ticks2us_of_bounds (f : Nat) (hf : 0 < f) (hf32 : f < 4294967296) :
    ∃ t : ℚ, ticks2us_of f = some t ∧ 0 < t
      ∧ 1000000 / (f : ℚ) * (1 - 1 / 2 ^ 53) * (1 - 1 / 2 ^ 24) ≤ t
      ∧ t ≤ 1000000 / (f : ℚ) * (1 + 1 / 2 ^ 53) * (1 + 1 / 2 ^ 24) := by
  have hfq : (0 : ℚ) < (f : ℚ) := by exact_mod_cast hf
  have hx : (0 : ℚ) < 1000000 / (f : ℚ) := div_pos (by norm_num) hfq
  have h1 : u32_to_double f = f := roundNE_natCast 53 f (by omega)
  have hd : 0 < roundNE 53 (1000000 / (f : ℚ)) := roundNE_pos 53 _ hx (by norm_num)
  refine ⟨roundNE 24 (roundNE 53 (1000000 / (f : ℚ))), ?_, roundNE_pos 24 _ hd (by norm_num), ?_, ?_⟩
  · simp [ticks2us_of, Nat.pos_iff_ne_zero.mp hf, h1, double_to_float, double_div]
  · calc 1000000 / (f : ℚ) * (1 - 1 / 2 ^ 53) * (1 - 1 / 2 ^ 24)
        ≤ roundNE 53 (1000000 / (f : ℚ)) * (1 - 1 / 2 ^ 24) := by
          apply mul_le_mul_of_nonneg_right (roundNE_ge 53 _ hx) (by norm_num)
      _ ≤ roundNE 24 (roundNE 53 (1000000 / (f : ℚ))) := roundNE_ge 24 _ hd
  · calc roundNE 24 (roundNE 53 (1000000 / (f : ℚ)))
        ≤ roundNE 53 (1000000 / (f : ℚ)) * (1 + 1 / 2 ^ 24) := roundNE_le 24 _ hd
      _ ≤ 1000000 / (f : ℚ) * (1 + 1 / 2 ^ 53) * (1 + 1 / 2 ^ 24) := by
          apply mul_le_mul_of_nonneg_right (roundNE_le 53 _ hx) (by norm_num)

/-- The `float` product of a converted tick count and a positive ratio, with
the two rounding errors bounded. -/
theorem float_product_bounds (n : Nat) (t : ℚ) (hn : 0 < n) (ht : 0 < t) :
    0 < float_mul (u32_to_float n) t
      ∧ (n : ℚ) * t * ((1 - 1 / 2 ^ 24) * (1 - 1 / 2 ^ 24)) ≤ float_mul (u32_to_float n) t
      ∧ float_mul (u32_to_float n) t ≤ (n : ℚ) * t * ((1 + 1 / 2 ^ 24) * (1 + 1 / 2 ^ 24)) := by
  have hnq : (0 : ℚ) < (n : ℚ) := by exact_mod_cast hn
  have ha0 : 0 < roundNE 24 (n : ℚ) := roundNE_pos 24 _ hnq (by norm_num)
  have hat : 0 < roundNE 24 (n : ℚ) * t := mul_pos ha0 ht
  unfold float_mul u32_to_float
  refine ⟨roundNE_pos 24 _ hat (by norm_num), ?_, ?_⟩
  · calc (n : ℚ) * t * ((1 - 1 / 2 ^ 24) * (1 - 1 / 2 ^ 24))
        = (n : ℚ) * (1 - 1 / 2 ^ 24) * t * (1 - 1 / 2 ^ 24) := by ring
      _ ≤ roundNE 24 (n : ℚ) * t * (1 - 1 / 2 ^ 24) := by
          apply mul_le_mul_of_nonneg_right _ (by norm_num)
          exact mul_le_mul_of_nonneg_right (roundNE_ge 24 _ hnq) (le_of_lt ht)
      _ ≤ roundNE 24 (roundNE 24 (n : ℚ) * t) := roundNE_ge 24 _ hat
  · calc roundNE 24 (roundNE 24 (n : ℚ) * t)
        ≤ roundNE 24 (n : ℚ) * t * (1 + 1 / 2 ^ 24) := roundNE_le 24 _ hat
      _ ≤ (n : ℚ) * (1 + 1 / 2 ^ 24) * t * (1 + 1 / 2 ^ 24) := by
          apply mul_le_mul_of_nonneg_right _ (by norm_num)
          exact mul_le_mul_of_nonneg_right (roundNE_le 24 _ hnq) (le_of_lt ht)
      _ = (n : ℚ) * t * ((1 + 1 / 2 ^ 24) * (1 + 1 / 2 ^ 24)) := by ring

/-- Every value the start-up code and the conversion round lies between
`2 ^ (-14)` and `2 ^ 53`, inside the normal range of binary32 and binary64, for
a non-zero 32-bit clock frequency and a non-zero 32-bit tick count. -/
theorem rounded_values_in_normal_range (f n : Nat) (hf : 0 < f) (hf32 : f < 4294967296)
    (hn : 0 < n) (hn32 : n < 4294967296) :
    ∃ t : ℚ, ticks2us_of f = some t
      ∧ (1 / 2 ^ 14 ≤ 1000000 / (f : ℚ) ∧ 1000000 / (f : ℚ) ≤ 2 ^ 53)
      ∧ (1 / 2 ^ 14 ≤ double_div 1000000 (u32_to_double f)
          ∧ double_div 1000000 (u32_to_double f) ≤ 2 ^ 53)
      ∧ (1 / 2 ^ 14 ≤ u32_to_float n * t ∧ u32_to_float n * t ≤ 2 ^ 53) := by
  obtain ⟨t, ht, htpos, hlo, hhi⟩ := ticks2us_of_bounds f hf hf32
  have hfq0 : (0 : ℚ) < (f : ℚ) := by exact_mod_cast hf
  have hfq : (f : ℚ) ≤ 4294967295 := by
    have : f ≤ 4294967295 := by omega
    exact_mod_cast this
  have hf1 : (1 : ℚ) ≤ (f : ℚ) := by exact_mod_cast hf
  have hnq0 : (0 : ℚ) < (n : ℚ) := by exact_mod_cast hn
  have hnq : (n : ℚ) ≤ 4294967295 := by
    have : n ≤ 4294967295 := by omega
    exact_mod_cast this
  have hn1 : (1 : ℚ) ≤ (n : ℚ) := by exact_mod_cast hn
  have hx0 : (0 : ℚ) < 1000000 / (f : ℚ) := div_pos (by norm_num) hfq0
  have hx1 : (1000000 : ℚ) / 4294967295 ≤ 1000000 / (f : ℚ) :=
    div_le_div_of_nonneg_left (by norm_num) hfq0 hfq
  have hx2 : 1000000 / (f : ℚ) ≤ 1000000 := by
    rw [div_le_iff₀ hfq0]
    nlinarith
  have hd : double_div 1000000 (u32_to_double f) = roundNE 53 (1000000 / (f : ℚ)) := by
    unfold double_div u32_to_double
    rw [roundNE_natCast 53 f (by omega)]
  have hd1 := roundNE_ge 53 _ hx0
  have hd2 := roundNE_le 53 _ hx0
  have ha0 : 0 < roundNE 24 (n : ℚ) := roundNE_pos 24 _ hnq0 (by norm_num)
  have ha1 := roundNE_ge 24 _ hnq0
  have ha2 := roundNE_le 24 _ hnq0
  have ht1 : (1 : ℚ) / 2 ^ 13 ≤ t := by
    have : 1000000 / 4294967295 * (1 - 1 / 2 ^ 53) * (1 - 1 / 2 ^ 24)
        ≤ 1000000 / (f : ℚ) * (1 - 1 / 2 ^ 53) * (1 - 1 / 2 ^ 24) := by gcongr
    have h2 : (1 : ℚ) / 2 ^ 13 ≤ 1000000 / 4294967295 * (1 - 1 / 2 ^ 53) * (1 - 1 / 2 ^ 24) := by
      norm_num
    linarith
  have ht2 : t ≤ 2 ^ 20 := by
    have : 1000000 / (f : ℚ) * (1 + 1 / 2 ^ 53) * (1 + 1 / 2 ^ 24)
        ≤ 1000000 * (1 + 1 / 2 ^ 53) * (1 + 1 / 2 ^ 24) := by gcongr
    have h2 : (1000000 : ℚ) * (1 + 1 / 2 ^ 53) * (1 + 1 / 2 ^ 24) ≤ 2 ^ 20 := by norm_num
    linarith
  have ha3 : (1 : ℚ) / 2 ≤ roundNE 24 (n : ℚ) := by
    have : (1 : ℚ) * (1 - 1 / 2 ^ 24) ≤ (n : ℚ) * (1 - 1 / 2 ^ 24) :=
      mul_le_mul_of_nonneg_right hn1 (by norm_num)
    have h2 : (1 : ℚ) / 2 ≤ 1 * (1 - 1 / 2 ^ 24) := by norm_num
    linarith
  have ha4 : roundNE 24 (n : ℚ) ≤ 2 ^ 33 := by
    have : (n : ℚ) * (1 + 1 / 2 ^ 24) ≤ 4294967295 * (1 + 1 / 2 ^ 24) :=
      mul_le_mul_of_nonneg_right hnq (by norm_num)
    have h2 : (4294967295 : ℚ) * (1 + 1 / 2 ^ 24) ≤ 2 ^ 33 := by norm_num
    linarith
  refine ⟨t, ht, ⟨?_, ?_⟩, ⟨?_, ?_⟩, ⟨?_, ?_⟩⟩
  · have : (1 : ℚ) / 2 ^ 14 ≤ 1000000 / 4294967295 := by norm_num
    linarith
  · have : (1000000 : ℚ) ≤ 2 ^ 53 := by norm_num
    linarith
  · rw [hd]
    have h1 : 1000000 / 4294967295 * (1 - 1 / 2 ^ 53)
        ≤ 1000000 / (f : ℚ) * (1 - 1 / 2 ^ 53) :=
      mul_le_mul_of_nonneg_right hx1 (by norm_num)
    have h2 : (1 : ℚ) / 2 ^ 14 ≤ 1000000 / 4294967295 * (1 - 1 / 2 ^ 53) := by norm_num
    linarith
  · rw [hd]
    have h1 : 1000000 / (f : ℚ) * (1 + 1 / 2 ^ 53) ≤ 1000000 * (1 + 1 / 2 ^ 53) :=
      mul_le_mul_of_nonneg_right hx2 (by norm_num)
    have h2 : (1000000 : ℚ) * (1 + 1 / 2 ^ 53) ≤ 2 ^ 53 := by norm_num
    linarith
  · unfold u32_to_float
    have h1 : (1 : ℚ) / 2 * (1 / 2 ^ 13) ≤ roundNE 24 (n : ℚ) * t :=
      mul_le_mul ha3 ht1 (by norm_num) (le_of_lt ha0)
    have h2 : (1 : ℚ) / 2 ^ 14 = 1 / 2 * (1 / 2 ^ 13) := by norm_num
    linarith
  · unfold u32_to_float
    have h1 : roundNE 24 (n : ℚ) * t ≤ 2 ^ 33 * 2 ^ 20 :=
      mul_le_mul ha4 ht2 (le_of_lt htpos) (by norm_num)
    have h2 : (2 : ℚ) ^ 33 * 2 ^ 20 = 2 ^ 53 := by norm_num
    linarith

/-- Claim C9: for every positive 32-bit clock frequency the exact ratio
`1000000 / f` times `f` is `1000000`; the `float` the program stores in
`ticks2us` times `f` differs from `1000000` by at most `1000000 / 2 ^ 23`, and
that product formed in `float` arithmetic by at most `1000000 / 2 ^ 22`. -/
theorem ticks2us_scale_correct (f : Nat) (hf : 0 < f) (hf32 : f < 4294967296) :
    1000000 / (f : ℚ) * (f : ℚ) = 1000000
      ∧ ∃ t : ℚ, ticks2us_of f = some t
          ∧ |t * (f : ℚ) - 1000000| ≤ 1000000 / 2 ^ 23
          ∧ |float_mul (u32_to_float f) t - 1000000| ≤ 1000000 / 2 ^ 22 := by
  have hfq : (0 : ℚ) < (f : ℚ) := by exact_mod_cast hf
  have hx : 1000000 / (f : ℚ) * (f : ℚ) = 1000000 := by field_simp
  obtain ⟨t, ht, htpos, hlo, hhi⟩ := ticks2us_of_bounds f hf hf32
  obtain ⟨_, hylo, hyhi⟩ := float_product_bounds f t hf htpos
  have hlo2 := mul_le_mul_of_nonneg_right hlo (le_of_lt hfq)
  have hhi2 := mul_le_mul_of_nonneg_right hhi (le_of_lt hfq)
  have e : ∀ a b : ℚ, 1000000 / (f : ℚ) * a * b * (f : ℚ) = 1000000 * (a * b) := by
    intro a b
    field_simp
    ring
  rw [e] at hlo2 hhi2
  have hlo3 : 1000000 * ((1 - 1 / 2 ^ 53) * (1 - 1 / 2 ^ 24))
        * ((1 - 1 / 2 ^ 24) * (1 - 1 / 2 ^ 24))
      ≤ (f : ℚ) * t * ((1 - 1 / 2 ^ 24) * (1 - 1 / 2 ^ 24)) := by
    rw [mul_comm (f : ℚ) t]
    exact mul_le_mul_of_nonneg_right hlo2 (by norm_num)
  have hhi3 : (f : ℚ) * t * ((1 + 1 / 2 ^ 24) * (1 + 1 / 2 ^ 24))
      ≤ 1000000 * ((1 + 1 / 2 ^ 53) * (1 + 1 / 2 ^ 24))
        * ((1 + 1 / 2 ^ 24) * (1 + 1 / 2 ^ 24)) := by
    rw [mul_comm (f : ℚ) t]
    exact mul_le_mul_of_nonneg_right hhi2 (by norm_num)
  refine ⟨hx, t, ht, ?_, ?_⟩
  · rw [abs_le]
    constructor
    · have : (1000000 : ℚ) * ((1 - 1 / 2 ^ 53) * (1 - 1 / 2 ^ 24))
          ≥ 1000000 - 1000000 / 2 ^ 23 := by
        norm_num
      linarith
    · have : (1000000 : ℚ) * ((1 + 1 / 2 ^ 53) * (1 + 1 / 2 ^ 24))
          ≤ 1000000 + 1000000 / 2 ^ 23 := by
        norm_num
      linarith
  · rw [abs_le]
    constructor
    · have : (1000000 : ℚ) * ((1 - 1 / 2 ^ 53) * (1 - 1 / 2 ^ 24))
            * ((1 - 1 / 2 ^ 24) * (1 - 1 / 2 ^ 24))
          ≥ 1000000 - 1000000 / 2 ^ 22 := by
        norm_num
      linarith
    · have : (1000000 : ℚ) * ((1 + 1 / 2 ^ 53) * (1 + 1 / 2 ^ 24))
            * ((1 + 1 / 2 ^ 24) * (1 + 1 / 2 ^ 24))
          ≤ 1000000 + 1000000 / 2 ^ 22 := by
        norm_num
      linarith

theorem ticks2us_scale_correct_witness :
    (0 : Nat) < 80000000 ∧ (80000000 : Nat) < 4294967296
      ∧ 1000000 / ((80000000 : Nat) : ℚ) * ((80000000 : Nat) : ℚ) = 1000000
      ∧ ∃ t : ℚ, ticks2us_of 80000000 = some t
          ∧ |t * ((80000000 : Nat) : ℚ) - 1000000| ≤ 1000000 / 2 ^ 23
          ∧ |float_mul (u32_to_float 80000000) t - 1000000| ≤ 1000000 / 2 ^ 22 :=
  ⟨by decide, by decide, ticks2us_scale_correct 80000000 (by decide) (by decide)⟩

/-! ## Range of the reported value -/

theorem u32_to_float_max : u32_to_float 4294967295 = 4294967296 := by
  unfold u32_to_float
  rw [roundNE_eval 24 ((4294967295 : Nat) : ℚ) 31 16777216
    (by norm_num) (by norm_num) (by norm_num [abs_lt])]
  norm_num

theorem ticks2us_of_1MHz : ticks2us_of 1000000 = some 1 := by
  have h1 : u32_to_double 1000000 = 1000000 := by
    have := roundNE_natCast 53 1000000 (by norm_num)
    simpa [u32_to_double] using this
  have h2 : roundNE 53 (1 : ℚ) = 1 := by
    have := roundNE_natCast 53 1 (by norm_num)
    simpa using this
  have h3 : roundNE 24 (1 : ℚ) = 1 := by
    have := roundNE_natCast 24 1 (by norm_num)
    simpa using this
  unfold ticks2us_of
  rw [if_neg (by norm_num), h1]
  simp [double_div, double_to_float, h2, h3]

theorem report_us_1MHz_max : report_us 1000000 4294967295 = none := by
  have h : float_mul 4294967296 1 = 4294967296 := by
    unfold float_mul
    rw [roundNE_eval 24 (4294967296 * 1) 32 8388608
      (by norm_num) (by norm_num) (by norm_num [abs_lt])]
    norm_num
  unfold report_us
  rw [ticks2us_of_1MHz, Option.some_bind]
  unfold ticks_to_us
  rw [u32_to_float_max, h]
  exact float_to_u32_of_large _ (le_refl _)

theorem report_us_1MHz_above : report_us 1000000 33554435 = some 33554436 := by
  have h1 : u32_to_float 33554435 = 33554436 := by
    unfold u32_to_float
    rw [roundNE_eval 24 ((33554435 : Nat) : ℚ) 25 8388609
      (by norm_num) (by norm_num) (by norm_num [abs_lt])]
    norm_num
  have h2 : float_mul 33554436 1 = 33554436 := by
    unfold float_mul
    rw [roundNE_eval 24 (33554436 * 1) 25 8388609
      (by norm_num) (by norm_num) (by norm_num [abs_lt])]
    norm_num
  have h3 := float_to_u32_natCast 33554436 (by norm_num)
  rw [Nat.cast_ofNat] at h3
  unfold report_us
  rw [ticks2us_of_1MHz, Option.some_bind]
  unfold ticks_to_us
  rw [h1, h2]
  exact h3

/-- Above 1 MHz every 32-bit tick count converts to a value that fits and does
not exceed the tick count. -/
theorem report_us_fits_above_1MHz (f n : Nat) (hf : 1000000 < f) (hf32 : f < 4294967296)
    (hn : n < 4294967296) :
    ∃ v : Nat, report_us f n = some v ∧ v ≤ n := by
  obtain ⟨t, ht, htpos, _, hhi⟩ := ticks2us_of_bounds f (by omega) hf32
  have hrep : report_us f n = float_to_u32 (roundNE 24 (roundNE 24 (n : ℚ) * t)) := by
    simp [report_us, ht, ticks_to_us, float_mul, u32_to_float]
  rcases Nat.eq_zero_or_pos n with h0 | hpos
  · subst h0
    refine ⟨0, ?_, le_refl _⟩
    rw [hrep]
    have : roundNE 24 (roundNE 24 ((0 : Nat) : ℚ) * t) = ((0 : Nat) : ℚ) := by simp [roundNE]
    rw [this]
    exact float_to_u32_natCast 0 (by norm_num)
  have hnq : (0 : ℚ) < (n : ℚ) := by exact_mod_cast hpos
  have hfq : (1000001 : ℚ) ≤ (f : ℚ) := by
    have : 1000001 ≤ f := hf
    exact_mod_cast this
  have ha0 : 0 < roundNE 24 (n : ℚ) := roundNE_pos 24 _ hnq (by norm_num)
  have ha : roundNE 24 (n : ℚ) ≤ (n : ℚ) * (1 + 1 / 2 ^ 24) := roundNE_le 24 _ hnq
  have hat : 0 < roundNE 24 (n : ℚ) * t := mul_pos ha0 htpos
  have hy0 : 0 < roundNE 24 (roundNE 24 (n : ℚ) * t) := roundNE_pos 24 _ hat (by norm_num)
  have hy : roundNE 24 (roundNE 24 (n : ℚ) * t)
      ≤ roundNE 24 (n : ℚ) * t * (1 + 1 / 2 ^ 24) := roundNE_le 24 _ hat
  have hx : 1000000 / (f : ℚ) ≤ 1000000 / 1000001 :=
    div_le_div_of_nonneg_left (by norm_num) (by norm_num) hfq
  have hT : t ≤ 1000000 / 1000001 * (1 + 1 / 2 ^ 53) * (1 + 1 / 2 ^ 24) := by
    refine le_trans hhi ?_
    gcongr
  have hprod : roundNE 24 (n : ℚ) * t
      ≤ (n : ℚ) * (1 + 1 / 2 ^ 24)
        * (1000000 / 1000001 * (1 + 1 / 2 ^ 53) * (1 + 1 / 2 ^ 24)) :=
    mul_le_mul ha hT (le_of_lt htpos) (by positivity)
  have hyn : roundNE 24 (roundNE 24 (n : ℚ) * t) ≤ (n : ℚ) := by
    have h1 : roundNE 24 (n : ℚ) * t * (1 + 1 / 2 ^ 24)
        ≤ (n : ℚ) * (1 + 1 / 2 ^ 24)
          * (1000000 / 1000001 * (1 + 1 / 2 ^ 53) * (1 + 1 / 2 ^ 24)) * (1 + 1 / 2 ^ 24) :=
      mul_le_mul_of_nonneg_right hprod (by norm_num)
    have h2 : (n : ℚ) * (1 + 1 / 2 ^ 24)
          * (1000000 / 1000001 * (1 + 1 / 2 ^ 53) * (1 + 1 / 2 ^ 24)) * (1 + 1 / 2 ^ 24)
        = (n : ℚ) * ((1 + 1 / 2 ^ 24)
          * (1000000 / 1000001 * (1 + 1 / 2 ^ 53) * (1 + 1 / 2 ^ 24)) * (1 + 1 / 2 ^ 24)) := by
      ring
    have h3 : (n : ℚ) * ((1 + 1 / 2 ^ 24)
          * (1000000 / 1000001 * (1 + 1 / 2 ^ 53) * (1 + 1 / 2 ^ 24)) * (1 + 1 / 2 ^ 24))
        ≤ (n : ℚ) * 1 :=
      mul_le_mul_of_nonneg_left (by norm_num) (le_of_lt hnq)
    linarith
  have hfl : ⌊roundNE 24 (roundNE 24 (n : ℚ) * t)⌋₊ ≤ n := Nat.floor_le_of_le hyn
  refine ⟨⌊roundNE 24 (roundNE 24 (n : ℚ) * t)⌋₊, ?_, hfl⟩
  rw [hrep]
  exact float_to_u32_of_nonneg _ (le_of_lt hy0) (by omega)


/-- Below 1 MHz the largest 32-bit tick count converts to a `float` of `2 ^ 32`
or more. -/
theorem report_us_overflows_below_1MHz (f : Nat) (hf : 0 < f) (hf6 : f < 1000000) :
    ∃ t : ℚ, ticks2us_of f = some t
      ∧ 4294967296 ≤ float_mul (u32_to_float 4294967295) t
      ∧ report_us f 4294967295 = none := by
  obtain ⟨t, ht, htpos, hlo, _⟩ := ticks2us_of_bounds f hf (by omega)
  have hfq0 : (0 : ℚ) < (f : ℚ) := by exact_mod_cast hf
  have hfq : (f : ℚ) ≤ 999999 := by
    have : f ≤ 999999 := by omega
    exact_mod_cast this
  have hx : (1000000 : ℚ) / 999999 ≤ 1000000 / (f : ℚ) :=
    div_le_div_of_nonneg_left (by norm_num) hfq0 hfq
  have hT : 1000000 / 999999 * (1 - 1 / 2 ^ 53) * (1 - 1 / 2 ^ 24) ≤ t := by
    refine le_trans ?_ hlo
    gcongr
  have hat : (0 : ℚ) < 4294967296 * t := mul_pos (by norm_num) htpos
  have hy : 4294967296 * t * (1 - 1 / 2 ^ 24) ≤ roundNE 24 (4294967296 * t) :=
    roundNE_ge 24 _ hat
  have h1 : (4294967296 : ℚ) * (1000000 / 999999 * (1 - 1 / 2 ^ 53) * (1 - 1 / 2 ^ 24))
      ≤ 4294967296 * t := mul_le_mul_of_nonneg_left hT (by norm_num)
  have h2 : (4294967296 : ℚ) * (1000000 / 999999 * (1 - 1 / 2 ^ 53) * (1 - 1 / 2 ^ 24))
        * (1 - 1 / 2 ^ 24) ≤ 4294967296 * t * (1 - 1 / 2 ^ 24) :=
    mul_le_mul_of_nonneg_right h1 (by norm_num)
  have h3 : (4294967296 : ℚ) ≤ 4294967296
      * (1000000 / 999999 * (1 - 1 / 2 ^ 53) * (1 - 1 / 2 ^ 24)) * (1 - 1 / 2 ^ 24) := by
    norm_num
  have hbig : (4294967296 : ℚ) ≤ float_mul (u32_to_float 4294967295) t := by
    rw [u32_to_float_max]
    unfold float_mul
    linarith
  refine ⟨t, ht, hbig, ?_⟩
  unfold report_us
  rw [ht, Option.some_bind]
  unfold ticks_to_us
  exact float_to_u32_of_large _ hbig

/-- Claim C10, counterexample: at a clock of exactly 1,000,000 Hz the largest
32-bit tick count becomes the `float` `2 ^ 32`, which does not fit `uint32_t`,
and the tick count 33,554,435 is reported as 33,554,436, more than itself and
more than the exact quotient; so at `f = 1000000` it is not the case that every
32-bit tick count has a value that fits. -/
theorem report_us_at_1MHz_not_in_range :
    report_us 1000000 4294967295 = none
      ∧ exact_us 1000000 4294967295 = 4294967295
      ∧ report_us 1000000 33554435 = some 33554436
      ∧ exact_us 1000000 33554435 = 33554435
      ∧ ¬ ((∀ n : Nat, n < 4294967296 →
              ∃ v : Nat, report_us 1000000 n = some v ∧ v < 4294967296)
            ↔ 1000000 ≤ 1000000) := by
  refine ⟨report_us_1MHz_max, by decide, report_us_1MHz_above, by decide, fun h => ?_⟩
  obtain ⟨v, hv, _⟩ := h.mpr (le_refl _) 4294967295 (by norm_num)
  rw [report_us_1MHz_max] at hv
  exact Option.noConfusion hv

/-- Claim C10, amended: for every positive 32-bit clock frequency `f` the value
the reporting loop computes fits `uint32_t` for every 32-bit tick count exactly
when `f` exceeds 1,000,000 Hz, and is then at most the tick count; for
`f ≤ 1000000` the tick count `2 ^ 32 - 1` has no representable value. -/
theorem report_us_range (f : Nat) (hf : 0 < f) (hf32 : f < 4294967296) :
    ((∀ n : Nat, n < 4294967296 → ∃ v : Nat, report_us f n = some v ∧ v < 4294967296)
        ↔ 1000000 < f)
      ∧ (1000000 < f → ∀ n : Nat, n < 4294967296 → ∃ v : Nat, report_us f n = some v ∧ v ≤ n)
      ∧ (f ≤ 1000000 → report_us f 4294967295 = none) := by
  have hsmall : f ≤ 1000000 → report_us f 4294967295 = none := by
    intro h
    rcases Nat.lt_or_eq_of_le h with h1 | h1
    · obtain ⟨_, _, _, hnone⟩ := report_us_overflows_below_1MHz f hf h1
      exact hnone
    · rw [h1]; exact report_us_1MHz_max
  refine ⟨⟨fun h => ?_, fun h n hn => ?_⟩, fun h n hn => report_us_fits_above_1MHz f n h hf32 hn,
    hsmall⟩
  · by_contra hle
    obtain ⟨v, hv, _⟩ := h 4294967295 (by norm_num)
    rw [hsmall (by omega)] at hv
    exact Option.noConfusion hv
  · obtain ⟨v, hv, hvn⟩ := report_us_fits_above_1MHz f n h hf32 hn
    exact ⟨v, hv, by omega⟩

theorem report_us_range_witness :
    (0 : Nat) < 80000000 ∧ (80000000 : Nat) < 4294967296 ∧ (1000000 : Nat) < 80000000
      ∧ (40000 : Nat) < 4294967296
      ∧ ∃ v : Nat, report_us 80000000 40000 = some v ∧ v ≤ 40000 :=
  ⟨by decide, by decide, by decide, by decide,
    (report_us_range 80000000 (by decide) (by decide)).2.1 (by decide) 40000 (by decide)⟩


/-! ## One iteration of the reporting loop -/

theorem float_mul_eq_zero (n : Nat) (t : ℚ) (h : n = 0 ∨ t = 0) :
    float_mul (u32_to_float n) t = 0 := by
  rcases h with h | h
  · subst h; simp [float_mul, u32_to_float, roundNE]
  · subst h; simp [float_mul, roundNE]

/-- The `float` product of a converted tick count and a non-negative ratio
lies within two roundings of the exact product. -/
theorem float_product_bounds_nonneg (n : Nat) (t : ℚ) (ht : 0 ≤ t) :
    0 ≤ float_mul (u32_to_float n) t
      ∧ (n : ℚ) * t * ((1 - 1 / 2 ^ 24) * (1 - 1 / 2 ^ 24)) ≤ float_mul (u32_to_float n) t
      ∧ float_mul (u32_to_float n) t ≤ (n : ℚ) * t * ((1 + 1 / 2 ^ 24) * (1 + 1 / 2 ^ 24)) := by
  rcases Nat.eq_zero_or_pos n with hn | hn
  · rw [float_mul_eq_zero n t (Or.inl hn), hn]; simp
  rcases eq_or_lt_of_le ht with h0 | hpos
  · rw [float_mul_eq_zero n t (Or.inr h0.symm), ← h0]; simp
  obtain ⟨h1, h2, h3⟩ := float_product_bounds n t hn hpos
  exact ⟨le_of_lt h1, h2, h3⟩

/-- A product that stays below `2 ^ 32` after two roundings is reported, as the
integer part of the `float` product, within the rounding error of the exact
product. -/
theorem ticks_to_us_within (n : Nat) (t : ℚ) (ht : 0 ≤ t)
    (hlt : (n : ℚ) * t * ((1 + 1 / 2 ^ 24) * (1 + 1 / 2 ^ 24)) < 4294967296) :
    ∃ v : Nat, ticks_to_us n t = some v
      ∧ v = ⌊float_mul (u32_to_float n) t⌋₊
      ∧ (n : ℚ) * t * ((1 - 1 / 2 ^ 24) * (1 - 1 / 2 ^ 24)) - 1 < (v : ℚ)
      ∧ (v : ℚ) ≤ (n : ℚ) * t * ((1 + 1 / 2 ^ 24) * (1 + 1 / 2 ^ 24)) := by
  obtain ⟨h0, hlo, hhi⟩ := float_product_bounds_nonneg n t ht
  have hfl : ((⌊float_mul (u32_to_float n) t⌋₊ : Nat) : ℚ) ≤ float_mul (u32_to_float n) t :=
    Nat.floor_le h0
  have hfl2 : float_mul (u32_to_float n) t < (⌊float_mul (u32_to_float n) t⌋₊ : ℚ) + 1 :=
    Nat.lt_floor_add_one _
  have hsmall : ⌊float_mul (u32_to_float n) t⌋₊ < 4294967296 := by
    have : ((⌊float_mul (u32_to_float n) t⌋₊ : Nat) : ℚ) < ((4294967296 : Nat) : ℚ) := by
      push_cast
      linarith
    exact_mod_cast this
  refine ⟨⌊float_mul (u32_to_float n) t⌋₊, ?_, rfl, by linarith, by linarith⟩
  unfold ticks_to_us
  exact float_to_u32_of_nonneg _ h0 hsmall

/-- A product that reaches `2 ^ 32` even after two roundings down has no
representable value. -/
theorem ticks_to_us_overflow (n : Nat) (t : ℚ) (ht : 0 ≤ t)
    (h : 4294967296 ≤ (n : ℚ) * t * ((1 - 1 / 2 ^ 24) * (1 - 1 / 2 ^ 24))) :
    ticks_to_us n t = none := by
  obtain ⟨_, hlo, _⟩ := float_product_bounds_nonneg n t ht
  unfold ticks_to_us
  exact float_to_u32_of_large _ (le_trans h hlo)

/-- A tick count below `2 ^ 24` whose exact product with the ratio is a natural
number below `2 ^ 24` is reported exactly. -/
theorem ticks_to_us_exact (n k : Nat) (t : ℚ) (hn : n < 16777216) (hk : k < 16777216)
    (h : (n : ℚ) * t = (k : ℚ)) : ticks_to_us n t = some k := by
  have h1 : u32_to_float n = n := roundNE_natCast 24 n (by norm_num; exact hn)
  have h2 : float_mul (n : ℚ) t = k := by
    unfold float_mul
    rw [h]
    exact roundNE_natCast 24 k (by norm_num; exact hk)
  unfold ticks_to_us
  rw [h1, h2]
  exact float_to_u32_natCast k (by omega)

theorem ticks_to_us_33554435_at_one : ticks_to_us 33554435 1 = some 33554436 := by
  have h1 : u32_to_float 33554435 = 33554436 := by
    unfold u32_to_float
    rw [roundNE_eval 24 ((33554435 : Nat) : ℚ) 25 8388609
      (by norm_num) (by norm_num) (by norm_num [abs_lt])]
    norm_num
  have h2 : float_mul 33554436 1 = 33554436 := by
    unfold float_mul
    rw [roundNE_eval 24 (33554436 * 1) 25 8388609
      (by norm_num) (by norm_num) (by norm_num [abs_lt])]
    norm_num
  have h3 := float_to_u32_natCast 33554436 (by norm_num)
  rw [Nat.cast_ofNat] at h3
  unfold ticks_to_us
  rw [h1, h2]
  exact h3

theorem ticks_to_us_67108870_at_one : ticks_to_us 67108870 1 = some 67108872 := by
  have h1 : u32_to_float 67108870 = 67108872 := by
    unfold u32_to_float
    rw [roundNE_eval 24 ((67108870 : Nat) : ℚ) 26 8388609
      (by norm_num) (by norm_num) (by norm_num [abs_lt])]
    norm_num
  have h2 : float_mul 67108872 1 = 67108872 := by
    unfold float_mul
    rw [roundNE_eval 24 (67108872 * 1) 26 8388609
      (by norm_num) (by norm_num) (by norm_num [abs_lt])]
    norm_num
  have h3 := float_to_u32_natCast 67108872 (by norm_num)
  rw [Nat.cast_ofNat] at h3
  unfold ticks_to_us
  rw [h1, h2]
  exact h3

/-- Claim C7, counterexample: with an APB clock of 1,000,000 Hz (`ticks2us` is
`1.0`) and the edges rising at 0, falling at 33,554,435, rising at 67,108,870,
the store holds `duty_cycle = 33554435` and `period = 67108870`, whose exact
products with `ticks2us` truncate to themselves, yet the report carries
33,554,436 and 67,108,872: the tick counts are rounded to `float` first. -/
theorem reporting_loop_rounds_tick_count :
    app_main_start 1000000 Globals.init = some { Globals.init with ticks2us := 1 }
      ∧ (run_edges { Globals.init with ticks2us := 1 } [⟨MCPWM_POS_EDGE, 0⟩,
          ⟨MCPWM_NEG_EDGE, 33554435⟩, ⟨MCPWM_POS_EDGE, 67108870⟩]).pwm.duty_cycle = 33554435
      ∧ (run_edges { Globals.init with ticks2us := 1 } [⟨MCPWM_POS_EDGE, 0⟩,
          ⟨MCPWM_NEG_EDGE, 33554435⟩, ⟨MCPWM_POS_EDGE, 67108870⟩]).pwm.period = 67108870
      ∧ truncate ((33554435 : ℚ) * 1) = 33554435
      ∧ truncate ((67108870 : ℚ) * 1) = 67108870
      ∧ (app_main_loop (print_adcpwm (run_edges { Globals.init with ticks2us := 1 }
          [⟨MCPWM_POS_EDGE, 0⟩, ⟨MCPWM_NEG_EDGE, 33554435⟩,
            ⟨MCPWM_POS_EDGE, 67108870⟩]))).2
          = [{ duty := some 33554436, per := some 67108872 }] := by
  refine ⟨?_, ?_, ?_, ?_, ?_, ?_⟩
  · simp [app_main_start, ticks2us_of_1MHz]
  · simp only [run_edges, List.foldl_cons, List.foldl_nil, Ext_PWM_ISR_handler, if_true,
      reduceCtorEq, if_false, sub32, UINT32_MOD, Globals.init]
  · simp only [run_edges, List.foldl_cons, List.foldl_nil, Ext_PWM_ISR_handler, if_true,
      reduceCtorEq, if_false, sub32, UINT32_MOD, Globals.init]
  · have : ((33554435 : ℚ) * 1) = ((33554435 : Int) : ℚ) := by norm_num
    rw [truncate, if_pos (by norm_num), this, Int.floor_intCast]
  · have : ((67108870 : ℚ) * 1) = ((67108870 : Int) : ℚ) := by norm_num
    rw [truncate, if_pos (by norm_num), this, Int.floor_intCast]
  · have hd := ticks_to_us_33554435_at_one
    have hp := ticks_to_us_67108870_at_one
    simp only [run_edges, List.foldl_cons, List.foldl_nil, Ext_PWM_ISR_handler, if_true,
      reduceCtorEq, if_false, sub32, UINT32_MOD, Globals.init, app_main_loop, print_adcpwm]
    norm_num
    exact ⟨hd, hp⟩

/-- Claim C7, amended: one iteration of the reporting loop.  With
`time_2_print` set it logs exactly one report, duty first, and clears
`time_2_print`.  Each value is the tick count converted to `float`, multiplied
by `ticks2us` in `float` arithmetic and converted to `uint32_t`.  For
`ticks2us ≥ 0` and each of the two tick counts `n`: when
`n * ticks2us * (1 + 2 ^ (-24)) ^ 2 < 2 ^ 32` the value `v` is the integer part
of the `float` product, with
`n * ticks2us * (1 - 2 ^ (-24)) ^ 2 - 1 < v ≤ n * ticks2us * (1 + 2 ^ (-24)) ^ 2`;
when `n * ticks2us * (1 - 2 ^ (-24)) ^ 2 ≥ 2 ^ 32` there is no representable
value; and when `n < 2 ^ 24` and `n * ticks2us` is a natural number below
`2 ^ 24` the value is exactly that number.  With `time_2_print` clear it logs
nothing; either way `pwm.period`, `pwm.duty_cycle` and the stored rising-edge
timestamp are unchanged. -/
theorem reporting_loop_iteration (g : Globals) :
    (g.time_2_print ≠ 0 →
        ∃ r : Report, (app_main_loop g).2 = [r]
          ∧ r.duty = float_to_u32 (float_mul (u32_to_float g.pwm.duty_cycle) g.ticks2us)
          ∧ r.per = float_to_u32 (float_mul (u32_to_float g.pwm.period) g.ticks2us)
          ∧ (app_main_loop g).1.time_2_print = 0
          ∧ (0 ≤ g.ticks2us → ∀ (n : Nat) (o : Option Nat),
              (n, o) ∈ [(g.pwm.duty_cycle, r.duty), (g.pwm.period, r.per)] →
                ((n : ℚ) * g.ticks2us * ((1 + 1 / 2 ^ 24) * (1 + 1 / 2 ^ 24)) < 4294967296 →
                    ∃ v : Nat, o = some v
                      ∧ v = ⌊float_mul (u32_to_float n) g.ticks2us⌋₊
                      ∧ (n : ℚ) * g.ticks2us * ((1 - 1 / 2 ^ 24) * (1 - 1 / 2 ^ 24)) - 1
                          < (v : ℚ)
                      ∧ (v : ℚ)
                          ≤ (n : ℚ) * g.ticks2us * ((1 + 1 / 2 ^ 24) * (1 + 1 / 2 ^ 24)))
                  ∧ (4294967296
                        ≤ (n : ℚ) * g.ticks2us * ((1 - 1 / 2 ^ 24) * (1 - 1 / 2 ^ 24)) →
                      o = none)
                  ∧ (n < 16777216 → ∀ k : Nat, k < 16777216 →
                      (n : ℚ) * g.ticks2us = (k : ℚ) → o = some k)))
      ∧ (g.time_2_print = 0 → (app_main_loop g).2 = [])
      ∧ (app_main_loop g).1.pwm.period = g.pwm.period
      ∧ (app_main_loop g).1.pwm.duty_cycle = g.pwm.duty_cycle
      ∧ (app_main_loop g).1.pos_edg_0 = g.pos_edg_0 := by
  refine ⟨fun h => ?_, fun h => ?_, ?_, ?_, ?_⟩
  · refine ⟨{ duty := ticks_to_us g.pwm.duty_cycle g.ticks2us,
              per := ticks_to_us g.pwm.period g.ticks2us }, ?_, rfl, rfl, ?_, ?_⟩
    · simp [app_main_loop, h]
    · simp [app_main_loop, h]
    · intro ht n o hmem
      have key : o = ticks_to_us n g.ticks2us := by
        simp only [List.mem_cons, Prod.mk.injEq, List.mem_singleton, List.not_mem_nil,
          or_false] at hmem
        rcases hmem with ⟨h1, h2⟩ | ⟨h1, h2⟩
        · rw [h1, h2]
        · rw [h1, h2]
      rw [key]
      exact ⟨fun hlt => ticks_to_us_within n g.ticks2us ht hlt,
        fun hge => ticks_to_us_overflow n g.ticks2us ht hge,
        fun hn k hk hnk => ticks_to_us_exact n k g.ticks2us hn hk hnk⟩
  · simp [app_main_loop, h]
  all_goals
    unfold app_main_loop
    split_ifs <;> rfl

theorem reporting_loop_iteration_witness :
    (print_adcpwm { Globals.init with ticks2us := 13421773 / 1073741824, pwm := ⟨80000, 40000⟩ }).time_2_print ≠ 0
      ∧ (0 : ℚ) ≤ 13421773 / 1073741824
      ∧ ((40000 : Nat) : ℚ) * (13421773 / 1073741824) * ((1 + 1 / 2 ^ 24) * (1 + 1 / 2 ^ 24))
          < 4294967296
      ∧ ∃ (r : Report) (v : Nat),
          (app_main_loop
            (print_adcpwm { Globals.init with ticks2us := 13421773 / 1073741824, pwm := ⟨80000, 40000⟩ })).2 = [r]
          ∧ r.duty = some v
          ∧ ((40000 : Nat) : ℚ) * (13421773 / 1073741824)
              * ((1 - 1 / 2 ^ 24) * (1 - 1 / 2 ^ 24)) - 1 < (v : ℚ)
          ∧ (v : ℚ) ≤ ((40000 : Nat) : ℚ) * (13421773 / 1073741824)
              * ((1 + 1 / 2 ^ 24) * (1 + 1 / 2 ^ 24)) := by
  have h1 : (print_adcpwm { Globals.init with ticks2us := 13421773 / 1073741824, pwm := ⟨80000, 40000⟩ }).time_2_print ≠ 0 := by
    decide
  have h2 : (0 : ℚ) ≤ 13421773 / 1073741824 := by norm_num
  have h3 : ((40000 : Nat) : ℚ) * (13421773 / 1073741824)
      * ((1 + 1 / 2 ^ 24) * (1 + 1 / 2 ^ 24)) < 4294967296 := by norm_num
  obtain ⟨r, hr, _, _, _, hval⟩ := (reporting_loop_iteration
    (print_adcpwm { Globals.init with ticks2us := 13421773 / 1073741824, pwm := ⟨80000, 40000⟩ })).1 h1
  obtain ⟨v, hv, _, hlo, hhi⟩ := (hval h2 40000 r.duty (by simp [print_adcpwm])).1 h3
  exact ⟨h1, h2, h3, r, v, hr, hv, hlo, hhi⟩

end PWMMeter
